import Mathlib

/-!
# Verification of the tiny-face-detector-js detection core

Shallow embedding of the detection engine of `tiny-face-detector-js`:

* `src/js/image.js`    — integral-image construction and rectangle sums;
* `src/js/haar.js`     — feature / stage / cascade evaluation;
* `src/js/detector.js` — multi-scale sliding-window scan and NMS
  (shipped here as `src/unnamed/part_000`);
* `src/js/main.js`     — IoU and temporal face selection.

JavaScript numbers are modelled exactly: loop counters and pixel
coordinates as `ℤ`/`ℕ`, scale factors and thresholds as `ℚ`, and the
classifier arithmetic of `haar.js` as `ℝ` (its `Math.sqrt` call forces
the real field).  A typed-array read out of bounds yields `undefined`
in JavaScript and poisons subsequent arithmetic as `NaN`; reads are
therefore modelled as `Option`, with `none` standing for that
out-of-model excursion.
-/

namespace TFD

/-- A typed-array read `ii[idx]`: `undefined` (here `none`) when the
index is negative or at least the buffer length. -/
def tarrGet {α : Type} (ii : List α) (idx : ℤ) : Option α :=
  if 0 ≤ idx then ii[idx.toNat]? else none

/-- `rectSum` from `src/js/image.js` (lines 64–81).  Guards mirror the
source: `x < 0 || y < 0 || w <= 0 || h <= 0` returns 0, then
`x2 < 0 || y2 < 0` returns 0; otherwise the four corner reads
`D`, `C`, `B`, `A` and the inclusion–exclusion value `D - B - C + A`.
A corner read that falls outside the buffer yields `none` (JS `NaN`). -/
def rectSum {α : Type} [LinearOrderedField α]
    (ii : List α) (width x y w h : ℤ) : Option α :=
  if x < 0 ∨ y < 0 ∨ w ≤ 0 ∨ h ≤ 0 then some 0
  else if x + w - 1 < 0 ∨ y + h - 1 < 0 then some 0
  else
    match tarrGet ii ((y + h - 1) * width + (x + w - 1)),
          (if 0 < x then tarrGet ii ((y + h - 1) * width + (x - 1)) else some 0),
          (if 0 < y then tarrGet ii ((y - 1) * width + (x + w - 1)) else some 0),
          (if 0 < x ∧ 0 < y then tarrGet ii ((y - 1) * width + (x - 1))
           else some 0) with
    | some D, some C, some B, some A => some (D - B - C + A)
    | _, _, _, _ => none

/-- The running row sum of `computeIntegralImage`
(`src/js/image.js` lines 38–48): after processing column `x` of row
`y`, `rowSum` holds the sum of `gray[y*width + i]` for `i ≤ x`.
The grayscale buffer is modelled as an index function. -/
def rowSum {α : Type} [LinearOrderedField α]
    (gray : ℕ → α) (width y : ℕ) : ℕ → α
  | 0 => gray (y * width)
  | x + 1 => rowSum gray width y x + gray (y * width + (x + 1))

/-- The integral-table entry written at row `y`, column `x` by
`computeIntegralImage`: `ii[idx] = rowSum + (y > 0 ? ii[(y-1)*width+x] : 0)`
(`src/js/image.js` line 46). -/
def iiEntry {α : Type} [LinearOrderedField α]
    (gray : ℕ → α) (width : ℕ) : ℕ → ℕ → α
  | 0, x => rowSum gray width 0 x
  | y + 1, x => rowSum gray width (y + 1) x + iiEntry gray width y x

/-- The flat `width*height` integral buffer: position `idx` belongs to
row `idx / width`, column `idx % width`. -/
def integralList {α : Type} [LinearOrderedField α]
    (gray : ℕ → α) (width height : ℕ) : List α :=
  (List.range (height * width)).map fun idx =>
    iiEntry gray width (idx / width) (idx % width)

/-- `computeIntegralImage` from `src/js/image.js` (lines 34–52): the
intensity table `ii` and the squared-intensity table `ii2`
(`rowSum2 += val * val` uses the same recurrence on squared pixels). -/
def computeIntegralImage {α : Type} [LinearOrderedField α]
    (gray : ℕ → α) (width height : ℕ) : List α × List α :=
  (integralList gray width height,
   integralList (fun i => gray i * gray i) width height)

/-- Closed-form double prefix sum: all pixels with row `< Y` and
column `< X`. -/
def pixSum {α : Type} [LinearOrderedField α]
    (gray : ℕ → α) (width Y X : ℕ) : α :=
  ∑ y ∈ Finset.range Y, ∑ x ∈ Finset.range X, gray (y * width + x)

/-! ## `src/js/haar.js` — feature, stage and cascade evaluation

The classifier arithmetic runs on JavaScript numbers; `Math.sqrt`
forces the model into `ℝ`.  `rectSum` reads that stay inside the
buffer have the exact JS value; the detector below only ever queries
in-bounds windows.  `rectSumD` totalises the `Option` with 0 (a JS
out-of-bounds read would instead poison the value as `NaN`; no claim
proved here depends on the value of an out-of-bounds read). -/

/-- `rectSum` as used by `haar.js`: the plain numeric value. -/
noncomputable def rectSumD (ii : List ℝ) (width x y w h : ℤ) : ℝ :=
  (rectSum ii width x y w h).getD 0

/-- One signed rectangle of a Haar feature
(`{x, y, width, height, weight}` in `src/js/main.js` lines 57–63). -/
structure HRect where
  x : ℝ
  y : ℝ
  width : ℝ
  height : ℝ
  weight : ℝ

/-- A Haar feature: `{ tilted, rects }` (`src/js/main.js` line 70). -/
structure HaarFeature where
  tilted : ℝ
  rects : List HRect

/-- A weak classifier: `{ featureIndex, threshold, alpha, beta }`
(`src/js/main.js` lines 73–78). -/
structure WeakClassifier where
  featureIndex : ℕ
  threshold : ℝ
  alpha : ℝ
  beta : ℝ

/-- A stage: `{ stageThreshold, weakClassifiers }`
(`src/js/main.js` line 81). -/
structure Stage where
  stageThreshold : ℝ
  weakClassifiers : List WeakClassifier

/-- A cascade: `{ baseWindowWidth, baseWindowHeight, stages }`
(`src/js/main.js` line 85).  The base window dimensions are pixel
counts. -/
structure Cascade where
  baseWindowWidth : ℕ
  baseWindowHeight : ℕ
  stages : List Stage

/-- `evaluateFeature` from `src/js/haar.js` (lines 17–32): accumulate
`weight * rectSum` over the feature's rectangles, each rectangle
scaled and rounded per-rectangle (`Math.round`, which is `⌊x + 1/2⌋`),
then normalize by `invArea` and `stdDev`. -/
noncomputable def evaluateFeature (feature : HaarFeature) (ii : List ℝ)
    (imageWidth wx wy : ℤ) (scale invArea stdDev : ℝ) : ℝ :=
  (feature.rects.foldl (fun value r =>
    value + r.weight *
      rectSumD ii imageWidth (wx + round (r.x * scale))
        (wy + round (r.y * scale)) (round (r.width * scale))
        (round (r.height * scale))) 0) * invArea / stdDev

/-- The missing-feature fallback for `features[wc.featureIndex]`;
never reached by a well-formed cascade. -/
def emptyFeature : HaarFeature := ⟨0, []⟩

/-- `evaluateStage` from `src/js/haar.js` (lines 47–62): sum
`alpha`/`beta` votes over the weak classifiers, then pass iff the sum
reaches the stage threshold. -/
noncomputable def evaluateStage (stage : Stage) (features : List HaarFeature)
    (ii : List ℝ) (imageWidth wx wy : ℤ) (scale invArea stdDev : ℝ) : Bool :=
  decide (stage.stageThreshold ≤
    stage.weakClassifiers.foldl (fun sum wc =>
      sum +
        (if evaluateFeature (features.getD wc.featureIndex emptyFeature) ii
            imageWidth wx wy scale invArea stdDev < wc.threshold
         then wc.alpha else wc.beta)) 0)

/-- The window mean of `evaluateCascade` (`src/js/haar.js` line 80). -/
noncomputable def windowMean (ii : List ℝ) (imageWidth wx wy winW winH : ℤ) :
    ℝ :=
  rectSumD ii imageWidth wx wy winW winH / ((winW * winH : ℤ) : ℝ)

/-- The window variance of `evaluateCascade`
(`src/js/haar.js` lines 81–82). -/
noncomputable def windowVariance (ii ii2 : List ℝ)
    (imageWidth wx wy winW winH : ℤ) : ℝ :=
  rectSumD ii2 imageWidth wx wy winW winH / ((winW * winH : ℤ) : ℝ)
    - windowMean ii imageWidth wx wy winW winH
      * windowMean ii imageWidth wx wy winW winH

/-- `stdDev = Math.sqrt(Math.max(variance, 1.0))`
(`src/js/haar.js` line 83). -/
noncomputable def windowStdDev (ii ii2 : List ℝ)
    (imageWidth wx wy winW winH : ℤ) : ℝ :=
  Real.sqrt (max (windowVariance ii ii2 imageWidth wx wy winW winH) 1)

/-- The stage loop of `evaluateCascade` (`src/js/haar.js` lines
86–91): evaluate stages in order, returning `false` at the first
failing stage. -/
noncomputable def stagesPass (stages : List Stage) (features : List HaarFeature)
    (ii : List ℝ) (imageWidth wx wy : ℤ) (scale invArea stdDev : ℝ) : Bool :=
  match stages with
  | [] => true
  | stage :: rest =>
      if evaluateStage stage features ii imageWidth wx wy scale invArea stdDev
      then stagesPass rest features ii imageWidth wx wy scale invArea stdDev
      else false

/-- `evaluateCascade` from `src/js/haar.js` (lines 78–92). -/
noncomputable def evaluateCascade (cascade : Cascade)
    (features : List HaarFeature) (ii ii2 : List ℝ)
    (imageWidth wx wy : ℤ) (scale : ℝ) (winW winH : ℤ) : Bool :=
  stagesPass cascade.stages features ii imageWidth wx wy scale
    (1 / ((winW * winH : ℤ) : ℝ))
    (windowStdDev ii ii2 imageWidth wx wy winW winH)

/-! ## `src/unnamed/part_000` (`js/detector.js`) — scan and NMS -/

/-- A detection `{ x, y, w, h, scale }`
(`src/unnamed/part_000` line 50). -/
structure Detection where
  x : ℤ
  y : ℤ
  w : ℤ
  h : ℤ
  scale : ℚ
deriving DecidableEq

/-- `computeIOU` from `src/unnamed/part_000` (lines 89–103):
intersection over union, with an early `0` when the intersection is
empty (`interArea === 0`). -/
def computeIOU (boxA boxB : Detection) : ℚ :=
  let xA := max boxA.x boxB.x
  let yA := max boxA.y boxB.y
  let xB := min (boxA.x + boxA.w) (boxB.x + boxB.w)
  let yB := min (boxA.y + boxA.h) (boxB.y + boxB.h)
  let interArea := max 0 (xB - xA) * max 0 (yB - yA)
  if interArea = 0 then 0
  else
    (interArea : ℚ) /
      ((boxA.w * boxA.h : ℤ) + (boxB.w * boxB.h : ℤ) - interArea : ℤ)

/-- The greedy walk of `nonMaximumSuppression`
(`src/unnamed/part_000` lines 71–84): keep the head, suppress every
later detection overlapping it more than the threshold, recurse. -/
def nmsKeep (overlapThreshold : ℚ) : List Detection → List Detection
  | [] => []
  | d :: rest =>
      d :: nmsKeep overlapThreshold
        (rest.filter fun e => !decide (overlapThreshold < computeIOU d e))
termination_by l => l.length
decreasing_by
  simp only [List.length_cons]
  exact Nat.lt_succ_of_le (List.length_filter_le _ _)

/-- The area comparator of `detections.sort((a, b) => b.w*b.h - a.w*a.h)`
(`src/unnamed/part_000` line 66): stable sort by area descending. -/
def areaDesc (a b : Detection) : Bool := decide (b.w * b.h ≤ a.w * a.h)

/-- `nonMaximumSuppression` from `src/unnamed/part_000` (lines 62–87).
The default `overlapThreshold` at the JS call site is `0.3`. -/
def nonMaximumSuppression (detections : List Detection)
    (overlapThreshold : ℚ) : List Detection :=
  if detections = [] then []
  else nmsKeep overlapThreshold (detections.mergeSort areaDesc)

/-- The counter values visited by `for (v = x; v <= bound; v += step)`
(`src/unnamed/part_000` lines 46–47).  The loop only runs with
`step = max(2, ...) ≥ 2`; the `0 < step` conjunct makes the recursion
well-founded and is vacuous at every call site. -/
def scanXs (bound step x : ℤ) : List ℤ :=
  if x ≤ bound ∧ 0 < step then x :: scanXs bound step (x + step) else []
termination_by (bound + 1 - x).toNat
decreasing_by omega

/-- The window scan at one scale (`src/unnamed/part_000` lines
44–53): window origins stepped by `max(2, Math.floor(0.1 * winW))`,
recording a detection for every window the cascade accepts. -/
noncomputable def scaleDetections (cascade : Cascade)
    (features : List HaarFeature) (ii ii2 : List ℝ) (width height : ℤ)
    (scale : ℚ) (winW winH : ℤ) : List Detection :=
  let step := max 2 ⌊(1 / 10 : ℚ) * winW⌋
  (scanXs (height - winH) step 0).flatMap fun y =>
    (scanXs (width - winW) step 0).flatMap fun x =>
      if evaluateCascade cascade features ii ii2 width x y ((scale : ℚ) : ℝ)
          winW winH
      then [⟨x, y, winW, winH, scale⟩] else []

/-- The `while (baseW * scale <= maxSize && baseH * scale <= maxSize)`
loop of `detectFaces` (`src/unnamed/part_000` lines 32–56), with
explicit fuel: `none` means the fuel ran out before the loop exited
(with `scaleFactor ≤ 1` the JS loop never exits). -/
noncomputable def scaleLoop (cascade : Cascade) (features : List HaarFeature)
    (ii ii2 : List ℝ) (width height : ℤ) (scaleFactor minSize maxSize : ℚ) :
    ℕ → ℚ → List Detection → Option (List Detection)
  | 0, _, _ => none
  | fuel + 1, scale, acc =>
      if (cascade.baseWindowWidth : ℚ) * scale ≤ maxSize ∧
          (cascade.baseWindowHeight : ℚ) * scale ≤ maxSize then
        let winW := round ((cascade.baseWindowWidth : ℚ) * scale)
        let winH := round ((cascade.baseWindowHeight : ℚ) * scale)
        if (winW : ℚ) < minSize ∨ (winH : ℚ) < minSize then
          scaleLoop cascade features ii ii2 width height scaleFactor minSize
            maxSize fuel (scale * scaleFactor) acc
        else
          scaleLoop cascade features ii ii2 width height scaleFactor minSize
            maxSize fuel (scale * scaleFactor)
            (acc ++ scaleDetections cascade features ii ii2 width height
              scale winW winH)
      else some acc

/-- `detectFaces` from `src/unnamed/part_000` (lines 15–59), options
already destructured (the JS defaults are resolved at the call site).
There is no validation of `scaleFactor`, `minSize` or `maxSize`. -/
noncomputable def detectFaces (gray : ℕ → ℝ) (width height : ℕ)
    (cascade : Cascade) (features : List HaarFeature)
    (scaleFactor minSize maxSize : ℚ) (fuel : ℕ) : Option (List Detection) :=
  let tables := computeIntegralImage gray width height
  if cascade.baseWindowWidth = 0 ∨ cascade.baseWindowHeight = 0 then some []
  else
    (scaleLoop cascade features tables.1 tables.2 width height scaleFactor
        minSize maxSize fuel 1 []).map
      fun detections => nonMaximumSuppression detections (3 / 10)

/-! ## `src/js/main.js` — IoU and temporal selection -/

/-- `calculateIoU` from `src/js/main.js` (lines 162–179); note the
`intersectionArea <= 0` early return. -/
def calculateIoU (boxA boxB : Detection) : ℚ :=
  let x1 := max boxA.x boxB.x
  let y1 := max boxA.y boxB.y
  let x2 := min (boxA.x + boxA.w) (boxB.x + boxB.w)
  let y2 := min (boxA.y + boxA.h) (boxB.y + boxB.h)
  let intersectionArea := max 0 (x2 - x1) * max 0 (y2 - y1)
  if intersectionArea ≤ 0 then 0
  else
    (intersectionArea : ℚ) /
      ((boxA.w * boxA.h : ℤ) + (boxB.w * boxB.h : ℤ) - intersectionArea : ℤ)

/-- `detections.reduce(...)` picking the largest face
(`src/js/main.js` lines 187–189): start from the first element,
replace only on strictly greater area. -/
def largestFace (d : Detection) (rest : List Detection) : Detection :=
  rest.foldl (fun largest current =>
    if largest.w * largest.h < current.w * current.h then current else largest) d

/-- The best-IoU fold of `selectBestFace` (`src/js/main.js` lines
193–202): `bestMatch` starts `null`, `bestScore` starts 0, updated on
strictly greater score. -/
def bestIoUMatch (previousBox : Detection) (detections : List Detection) :
    Option Detection × ℚ :=
  detections.foldl (fun best detection =>
    let score := calculateIoU previousBox detection
    if best.2 < score then (some detection, score) else best) (none, 0)

/-- `selectBestFace` from `src/js/main.js` (lines 182–212). -/
def selectBestFace (detections : List Detection)
    (previousBox : Option Detection) : Option Detection :=
  match detections with
  | [] => none
  | d :: rest =>
      match previousBox with
      | none => some (largestFace d rest)
      | some prev =>
          let best := bestIoUMatch prev (d :: rest)
          if best.1 = none ∨ best.2 < 1 / 10 then some (largestFace d rest)
          else best.1

/-- The vote sum accumulated by `evaluateStage`: `alpha` for a
normalized feature value strictly below the classifier threshold,
`beta` otherwise. -/
noncomputable def stageVoteSum (stage : Stage) (features : List HaarFeature)
    (ii : List ℝ) (imageWidth wx wy : ℤ) (scale invArea stdDev : ℝ) : ℝ :=
  (stage.weakClassifiers.map fun wc =>
    if evaluateFeature (features.getD wc.featureIndex emptyFeature) ii
        imageWidth wx wy scale invArea stdDev < wc.threshold
    then wc.alpha else wc.beta).sum

/-! ## Scenario A objects (spec §8): one stage, one classifier whose
feature has no rectangles (so it always evaluates to 0), classifier
threshold 0.5, alpha 0, beta 1, stage threshold 1. -/

noncomputable def scenFeature : HaarFeature := ⟨0, []⟩

noncomputable def scenStage : Stage := ⟨1, [⟨0, 1 / 2, 0, 1⟩]⟩

noncomputable def scenCascade : Cascade := ⟨24, 24, [scenStage]⟩

noncomputable def scenFeatures : List HaarFeature := [scenFeature]

/-- The step function of the best-IoU fold in `selectBestFace`. -/
def bestFoldF (prev : Detection) (best : Option Detection × ℚ)
    (detection : Detection) : Option Detection × ℚ :=
  if best.2 < calculateIoU prev detection
  then (some detection, calculateIoU prev detection) else best

/-- A sample 2×2 grayscale image with pixels 1, 2, 3, 4 (row-major),
used by concrete witnesses. -/
def g2 : ℕ → ℚ := fun i => (i : ℚ) + 1

/-- A 1×1 base window cascade with no stages: accepts every window. -/
def cascadeOne : Cascade := ⟨1, 1, []⟩

/-- A 24×24 base window cascade with no stages, and an all-black
image, used as concrete scan configurations. -/
def cascadeBase : Cascade := ⟨24, 24, []⟩

noncomputable def grayZ : ℕ → ℝ := fun _ => 0

/-- The spec's closed-form description of the multi-scale loop
(§4.6), for comparison with the loop `scaleLoop` embedded from the
source: at step `k` the scale is `scaleFactor ^ k`; a scale whose
rounded window falls below `minSize` contributes no detections but
does not abort; otherwise the stepped window grid is scanned. -/
noncomputable def specScaleBody (cascade : Cascade)
    (features : List HaarFeature) (ii ii2 : List ℝ) (width height : ℤ)
    (sf minSize : ℚ) (k : ℕ) : List Detection :=
  if ((round ((cascade.baseWindowWidth : ℚ) * sf ^ k) : ℤ) : ℚ) < minSize ∨
      ((round ((cascade.baseWindowHeight : ℚ) * sf ^ k) : ℤ) : ℚ) < minSize
  then []
  else
    scaleDetections cascade features ii ii2 width height (sf ^ k)
      (round ((cascade.baseWindowWidth : ℚ) * sf ^ k))
      (round ((cascade.baseWindowHeight : ℚ) * sf ^ k))

theorem tarrGet_coe {α : Type} (l : List α) (n : ℕ) :
    tarrGet l (n : ℤ) = l[n]? := by
  simp [tarrGet]

section ImageLemmas

variable {α : Type} [LinearOrderedField α]

theorem rowSum_eq (gray : ℕ → α) (width y x : ℕ) :
    rowSum gray width y x = ∑ i ∈ Finset.range (x + 1), gray (y * width + i) := by
  induction x with
  | zero => simp [rowSum]
  | succ n ih => rw [rowSum, ih, Finset.sum_range_succ _ (n + 1)]

theorem iiEntry_eq (gray : ℕ → α) (width y x : ℕ) :
    iiEntry gray width y x = pixSum gray width (y + 1) (x + 1) := by
  induction y with
  | zero => simp [iiEntry, pixSum, rowSum_eq]
  | succ n ih =>
      rw [iiEntry, ih, pixSum, pixSum, Finset.sum_range_succ _ (n + 1),
        rowSum_eq, add_comm]

@[simp] theorem pixSum_zero_rows (gray : ℕ → α) (width X : ℕ) :
    pixSum gray width 0 X = 0 := by simp [pixSum]

@[simp] theorem pixSum_zero_cols (gray : ℕ → α) (width Y : ℕ) :
    pixSum gray width Y 0 = 0 := by simp [pixSum]

theorem pixSum_rect (gray : ℕ → α) (width x y w h : ℕ) :
    pixSum gray width (y + h) (x + w) - pixSum gray width y (x + w)
      - pixSum gray width (y + h) x + pixSum gray width y x
    = ∑ j ∈ Finset.Ico y (y + h), ∑ i ∈ Finset.Ico x (x + w),
        gray (j * width + i) := by
  have hrow : ∀ X : ℕ,
      pixSum gray width (y + h) X - pixSum gray width y X
        = ∑ j ∈ Finset.Ico y (y + h), ∑ i ∈ Finset.range X,
            gray (j * width + i) := by
    intro X
    rw [Finset.sum_Ico_eq_sub _ (Nat.le_add_right y h)]
    rfl
  have hsplit :
      pixSum gray width (y + h) (x + w) - pixSum gray width y (x + w)
        - pixSum gray width (y + h) x + pixSum gray width y x
      = (pixSum gray width (y + h) (x + w) - pixSum gray width y (x + w))
        - (pixSum gray width (y + h) x - pixSum gray width y x) := by ring
  rw [hsplit, hrow, hrow, ← Finset.sum_sub_distrib]
  refine Finset.sum_congr rfl fun j _ => ?_
  rw [Finset.sum_Ico_eq_sub _ (Nat.le_add_right x w)]

theorem integralList_getElem (gray : ℕ → α) (width height y x : ℕ)
    (hy : y < height) (hx : x < width) :
    (integralList gray width height)[y * width + x]?
      = some (iiEntry gray width y x) := by
  have hidx : y * width + x < height * width := by
    calc y * width + x < y * width + width := by omega
    _ = (y + 1) * width := by ring
    _ ≤ height * width := Nat.mul_le_mul_right width (by omega)
  have hdiv : (y * width + x) / width = y := by
    rw [mul_comm y width, Nat.mul_add_div (by omega), Nat.div_eq_of_lt hx,
      add_zero]
  have hmod : (y * width + x) % width = x := by
    rw [mul_comm y width, Nat.mul_add_mod, Nat.mod_eq_of_lt hx]
  rw [integralList, List.getElem?_map, List.getElem?_range hidx]
  simp [hdiv, hmod]

theorem tarrGet_entry (gray : ℕ → α) (width height r c : ℕ)
    (hr : r < height) (hc : c < width) :
    tarrGet (integralList gray width height) ((r : ℤ) * width + c)
      = some (pixSum gray width (r + 1) (c + 1)) := by
  rw [show ((r : ℤ) * width + c) = ((r * width + c : ℕ) : ℤ) by
    push_cast; ring, tarrGet_coe,
    integralList_getElem gray width height r c hr hc, iiEntry_eq]

/-- The central integral-image fact: on a table built by
`computeIntegralImage`, `rectSum` over any rectangle that lies fully
inside the image returns exactly the sum of the pixels it covers. -/
theorem rectSum_inside (gray : ℕ → α) (width height x y w h : ℕ)
    (hw : 0 < w) (hh : 0 < h) (hxw : x + w ≤ width) (hyh : y + h ≤ height) :
    rectSum (integralList gray width height) width x y w h
      = some (∑ j ∈ Finset.Ico y (y + h), ∑ i ∈ Finset.Ico x (x + w),
          gray (j * width + i)) := by
  have cy2 : ((y + h - 1 : ℕ) : ℤ) = (y : ℤ) + h - 1 := by omega
  have cx2 : ((x + w - 1 : ℕ) : ℤ) = (x : ℤ) + w - 1 := by omega
  have hD : tarrGet (integralList gray width height)
      (((y : ℤ) + h - 1) * width + ((x : ℤ) + w - 1))
      = some (pixSum gray width (y + h) (x + w)) := by
    rw [← cy2, ← cx2,
      tarrGet_entry gray width height (y + h - 1) (x + w - 1) (by omega)
        (by omega),
      show y + h - 1 + 1 = y + h by omega, show x + w - 1 + 1 = x + w by omega]
  have hC : (if 0 < (x : ℤ) then
        tarrGet (integralList gray width height)
          (((y : ℤ) + h - 1) * width + ((x : ℤ) - 1))
      else some 0) = some (pixSum gray width (y + h) x) := by
    by_cases hx0 : 0 < x
    · have cx1 : ((x - 1 : ℕ) : ℤ) = (x : ℤ) - 1 := by omega
      rw [if_pos (by exact_mod_cast hx0), ← cy2, ← cx1,
        tarrGet_entry gray width height (y + h - 1) (x - 1) (by omega)
          (by omega),
        show y + h - 1 + 1 = y + h by omega, show x - 1 + 1 = x by omega]
    · rw [if_neg (by omega), show x = 0 by omega, pixSum_zero_cols]
  have hB : (if 0 < (y : ℤ) then
        tarrGet (integralList gray width height)
          (((y : ℤ) - 1) * width + ((x : ℤ) + w - 1))
      else some 0) = some (pixSum gray width y (x + w)) := by
    by_cases hy0 : 0 < y
    · have cy1 : ((y - 1 : ℕ) : ℤ) = (y : ℤ) - 1 := by omega
      rw [if_pos (by exact_mod_cast hy0), ← cy1, ← cx2,
        tarrGet_entry gray width height (y - 1) (x + w - 1) (by omega)
          (by omega),
        show y - 1 + 1 = y by omega, show x + w - 1 + 1 = x + w by omega]
    · rw [if_neg (by omega), show y = 0 by omega, pixSum_zero_rows]
  have hA : (if 0 < (x : ℤ) ∧ 0 < (y : ℤ) then
        tarrGet (integralList gray width height)
          (((y : ℤ) - 1) * width + ((x : ℤ) - 1))
      else some 0) = some (pixSum gray width y x) := by
    by_cases hxy : 0 < x ∧ 0 < y
    · have cx1 : ((x - 1 : ℕ) : ℤ) = (x : ℤ) - 1 := by omega
      have cy1 : ((y - 1 : ℕ) : ℤ) = (y : ℤ) - 1 := by omega
      have hpos : 0 < (x : ℤ) ∧ 0 < (y : ℤ) := by
        exact ⟨by exact_mod_cast hxy.1, by exact_mod_cast hxy.2⟩
      rw [if_pos hpos, ← cy1, ← cx1,
        tarrGet_entry gray width height (y - 1) (x - 1) (by omega) (by omega),
        show y - 1 + 1 = y by omega, show x - 1 + 1 = x by omega]
    · rw [if_neg (by omega)]
      rcases Nat.eq_zero_or_pos x with hx0 | hx0
      · rw [hx0, pixSum_zero_cols]
      · rw [show y = 0 by omega, pixSum_zero_rows]
  rw [rectSum, if_neg (by omega), if_neg (by omega), hD, hC, hB, hA]
  rw [Option.some.injEq]
  exact pixSum_rect gray width x y w h

end ImageLemmas

/-! ## Lemmas about `haar.js` -/

theorem foldl_add_eq {β : Type} (f : β → ℝ) (l : List β) (a : ℝ) :
    l.foldl (fun s b => s + f b) a = a + (l.map f).sum := by
  induction l generalizing a with
  | nil => simp
  | cons b t ih => rw [List.foldl_cons, ih, List.map_cons, List.sum_cons]; ring

theorem evaluateStage_iff (stage : Stage) (features : List HaarFeature)
    (ii : List ℝ) (imageWidth wx wy : ℤ) (scale invArea stdDev : ℝ) :
    (evaluateStage stage features ii imageWidth wx wy scale invArea stdDev
        = true) ↔
      stage.stageThreshold ≤
        stageVoteSum stage features ii imageWidth wx wy scale invArea stdDev := by
  rw [evaluateStage, foldl_add_eq, decide_eq_true_iff]
  rw [stageVoteSum, zero_add]

theorem one_le_windowStdDev (ii ii2 : List ℝ)
    (imageWidth wx wy winW winH : ℤ) :
    1 ≤ windowStdDev ii ii2 imageWidth wx wy winW winH := by
  have h : Real.sqrt 1 ≤ Real.sqrt
      (max (windowVariance ii ii2 imageWidth wx wy winW winH) 1) :=
    Real.sqrt_le_sqrt (le_max_right _ 1)
  rw [Real.sqrt_one] at h
  rw [windowStdDev]
  exact h

theorem stagesPass_all (stages : List Stage) (features : List HaarFeature)
    (ii : List ℝ) (imageWidth wx wy : ℤ) (scale invArea stdDev : ℝ) :
    stagesPass stages features ii imageWidth wx wy scale invArea stdDev
      = stages.all fun s =>
          evaluateStage s features ii imageWidth wx wy scale invArea stdDev := by
  induction stages with
  | nil => rfl
  | cons s t ih =>
      rw [stagesPass, List.all_cons, ih]
      by_cases h : evaluateStage s features ii imageWidth wx wy scale invArea
          stdDev
      · rw [if_pos h, h, Bool.true_and]
      · rw [if_neg h, Bool.eq_false_iff.mpr h, Bool.false_and]

theorem stagesPass_first_fail (pre post : List Stage) (s : Stage)
    (features : List HaarFeature) (ii : List ℝ) (imageWidth wx wy : ℤ)
    (scale invArea stdDev : ℝ)
    (hfail : evaluateStage s features ii imageWidth wx wy scale invArea stdDev
      = false) :
    stagesPass (pre ++ s :: post) features ii imageWidth wx wy scale invArea
        stdDev = false ∧
    stagesPass (pre ++ s :: post) features ii imageWidth wx wy scale invArea
        stdDev
      = stagesPass (pre ++ [s]) features ii imageWidth wx wy scale invArea
          stdDev := by
  induction pre with
  | nil =>
      simp only [List.nil_append]
      rw [stagesPass, stagesPass, hfail]
      simp
  | cons p t ih =>
      simp only [List.cons_append]
      rw [stagesPass, stagesPass]
      by_cases hp : evaluateStage p features ii imageWidth wx wy scale invArea
          stdDev
      · rw [if_pos hp, if_pos hp]
        exact ih
      · rw [if_neg hp, if_neg hp]
        exact ⟨rfl, rfl⟩

theorem evaluateStage_scen (ii : List ℝ) (imageWidth wx wy : ℤ)
    (scale invArea stdDev : ℝ) :
    evaluateStage scenStage scenFeatures ii imageWidth wx wy scale invArea
      stdDev = false := by
  have hf : evaluateFeature (scenFeatures.getD 0 emptyFeature) ii imageWidth
      wx wy scale invArea stdDev = 0 := by
    rw [evaluateFeature]
    simp [scenFeatures, scenFeature]
  rw [evaluateStage]
  refine decide_eq_false ?_
  simp only [scenStage, List.foldl_cons, List.foldl_nil, hf]
  rw [if_pos (by norm_num : (0 : ℝ) < 1 / 2)]
  norm_num

theorem evaluateCascade_scen (ii ii2 : List ℝ) (imageWidth wx wy : ℤ)
    (scale : ℝ) (winW winH : ℤ) :
    evaluateCascade scenCascade scenFeatures ii ii2 imageWidth wx wy scale
      winW winH = false := by
  rw [evaluateCascade]
  show stagesPass [scenStage] scenFeatures ii imageWidth wx wy scale _ _
    = false
  rw [stagesPass, if_neg]
  rw [evaluateStage_scen]
  simp

theorem scaleDetections_scen (ii ii2 : List ℝ) (width height : ℤ)
    (scale : ℚ) (winW winH : ℤ) :
    scaleDetections scenCascade scenFeatures ii ii2 width height scale winW
      winH = [] := by
  rw [scaleDetections]
  simp [evaluateCascade_scen]

theorem scaleLoop_scen (ii ii2 : List ℝ) (width height : ℤ)
    (scaleFactor minSize maxSize : ℚ) (fuel : ℕ) (scale : ℚ) :
    scaleLoop scenCascade scenFeatures ii ii2 width height scaleFactor minSize
        maxSize fuel scale [] = none ∨
    scaleLoop scenCascade scenFeatures ii ii2 width height scaleFactor minSize
        maxSize fuel scale [] = some [] := by
  induction fuel generalizing scale with
  | zero => exact Or.inl rfl
  | succ n ih =>
      rw [scaleLoop]
      by_cases hc : (scenCascade.baseWindowWidth : ℚ) * scale ≤ maxSize ∧
          (scenCascade.baseWindowHeight : ℚ) * scale ≤ maxSize
      · rw [if_pos hc]
        by_cases hm : ((round ((scenCascade.baseWindowWidth : ℚ) * scale) : ℤ)
              : ℚ) < minSize ∨
            ((round ((scenCascade.baseWindowHeight : ℚ) * scale) : ℤ) : ℚ)
              < minSize
        · rw [if_pos hm]
          exact ih (scale * scaleFactor)
        · rw [if_neg hm, scaleDetections_scen, List.append_nil]
          exact ih (scale * scaleFactor)
      · rw [if_neg hc]
        exact Or.inr rfl

/-! ## Lemmas about non-maximum suppression -/

theorem computeIOU_comm (a b : Detection) : computeIOU a b = computeIOU b a := by
  simp only [computeIOU]
  rw [max_comm b.x a.x, max_comm b.y a.y, min_comm (b.x + b.w) (a.x + a.w),
    min_comm (b.y + b.h) (a.y + a.h), add_comm (b.w * b.h) (a.w * a.h)]

theorem nmsKeep_sublist (thr : ℚ) (l : List Detection) :
    (nmsKeep thr l).Sublist l := by
  induction l using nmsKeep.induct thr with
  | case1 => rw [nmsKeep]
  | case2 d rest ih =>
      rw [nmsKeep]
      exact (ih.trans (List.filter_sublist rest)).cons₂ d

theorem nmsKeep_pairwise (thr : ℚ) (l : List Detection) :
    (nmsKeep thr l).Pairwise fun a b => computeIOU a b ≤ thr := by
  induction l using nmsKeep.induct thr with
  | case1 => rw [nmsKeep]; exact List.Pairwise.nil
  | case2 d rest ih =>
      rw [nmsKeep]
      refine List.Pairwise.cons (fun e he => ?_) ih
      have hmem := (nmsKeep_sublist thr _).subset he
      have hp := List.of_mem_filter hmem
      simpa using hp

theorem nmsKeep_of_pairwise (thr : ℚ) (l : List Detection)
    (hl : l.Pairwise fun a b => computeIOU a b ≤ thr) :
    nmsKeep thr l = l := by
  induction l using nmsKeep.induct thr with
  | case1 => rw [nmsKeep]
  | case2 d rest ih =>
      rw [nmsKeep]
      have hfilter : (rest.filter fun e =>
          !decide (thr < computeIOU d e)) = rest := by
        refine List.filter_eq_self.mpr fun e he => ?_
        have := (List.pairwise_cons.mp hl).1 e he
        simpa using not_lt.mpr this
      rw [hfilter] at ih ⊢
      rw [ih (List.pairwise_cons.mp hl).2]

theorem areaDesc_trans (a b c : Detection) (hab : areaDesc a b)
    (hbc : areaDesc b c) : areaDesc a c := by
  simp only [areaDesc, decide_eq_true_iff] at hab hbc ⊢
  exact le_trans hbc hab

theorem areaDesc_total (a b : Detection) : areaDesc a b || areaDesc b a := by
  simp only [areaDesc]
  rcases le_total (a.w * a.h) (b.w * b.h) with h | h <;> simp [h]

theorem mem_nms (l : List Detection) (thr : ℚ) (a : Detection)
    (ha : a ∈ nonMaximumSuppression l thr) : a ∈ l := by
  rw [nonMaximumSuppression] at ha
  by_cases hl : l = []
  · rw [if_pos hl] at ha
    simp at ha
  · rw [if_neg hl] at ha
    exact List.mem_mergeSort.mp ((nmsKeep_sublist thr _).subset ha)

theorem nms_pairwise (l : List Detection) (thr : ℚ) :
    (nonMaximumSuppression l thr).Pairwise fun a b => computeIOU a b ≤ thr := by
  rw [nonMaximumSuppression]
  by_cases hl : l = []
  · rw [if_pos hl]
    exact List.Pairwise.nil
  · rw [if_neg hl]
    exact nmsKeep_pairwise thr _

/-! ## Lemmas about the multi-scale scan -/

theorem mem_scanXs_bounds (bound step : ℤ) :
    ∀ x v, v ∈ scanXs bound step x → x ≤ v ∧ v ≤ bound := by
  intro x
  induction x using scanXs.induct bound step with
  | case1 x h ih =>
      intro v hv
      rw [scanXs, if_pos h] at hv
      rcases List.mem_cons.mp hv with h1 | h1
      · exact ⟨h1 ▸ le_refl x, h1 ▸ h.1⟩
      · have := ih v h1
        exact ⟨by omega, this.2⟩
  | case2 x h =>
      intro v hv
      rw [scanXs, if_neg h] at hv
      exact absurd hv (List.not_mem_nil v)

theorem mem_scanXs_iff (bound step : ℤ) (hstep : 0 < step) :
    ∀ x v, v ∈ scanXs bound step x ↔
      x ≤ v ∧ v ≤ bound ∧ ∃ k : ℕ, v = x + k * step := by
  intro x
  induction x using scanXs.induct bound step with
  | case1 x h ih =>
      intro v
      rw [scanXs, if_pos h]
      constructor
      · intro hv
        rcases List.mem_cons.mp hv with h1 | h1
        · exact ⟨h1 ▸ le_refl x, h1 ▸ h.1, 0, by omega⟩
        · obtain ⟨hx1, hx2, k, hk⟩ := (ih v).mp h1
          refine ⟨by omega, hx2, k + 1, ?_⟩
          rw [hk]
          push_cast
          ring
      · rintro ⟨h1, h2, k, hk⟩
        rcases Nat.eq_zero_or_pos k with hk0 | hk0
        · subst hk0
          have : v = x := by omega
          rw [this]
          exact List.mem_cons_self x _
        · refine List.mem_cons_of_mem x ((ih v).mpr ⟨?_, h2, k - 1, ?_⟩)
          · have : (1 : ℤ) * step ≤ (k : ℤ) * step :=
              mul_le_mul_of_nonneg_right (by exact_mod_cast hk0) (by omega)
            omega
          · have hcast : ((k - 1 : ℕ) : ℤ) = (k : ℤ) - 1 := by omega
            rw [hcast]
            rw [hk]
            ring
  | case2 x h =>
      intro v
      rw [scanXs, if_neg h]
      simp only [List.not_mem_nil, false_iff]
      rintro ⟨h1, h2, k, hk⟩
      rcases not_and_or.mp h with hb | hs
      · omega
      · exact hs hstep

theorem mem_scaleDetections (cascade : Cascade) (features : List HaarFeature)
    (ii ii2 : List ℝ) (width height : ℤ) (scale : ℚ) (winW winH : ℤ)
    (d : Detection)
    (hd : d ∈ scaleDetections cascade features ii ii2 width height scale winW
      winH) :
    0 ≤ d.x ∧ d.x + winW ≤ width ∧ 0 ≤ d.y ∧ d.y + winH ≤ height ∧
    d.w = winW ∧ d.h = winH ∧ d.scale = scale ∧
    evaluateCascade cascade features ii ii2 width d.x d.y ((scale : ℚ) : ℝ)
      winW winH = true := by
  rw [scaleDetections] at hd
  obtain ⟨y, hy, hd2⟩ := List.mem_flatMap.mp hd
  obtain ⟨x, hx, hd3⟩ := List.mem_flatMap.mp hd2
  by_cases hev : evaluateCascade cascade features ii ii2 width x y
      ((scale : ℚ) : ℝ) winW winH
  · rw [if_pos hev] at hd3
    have hdval : d = ⟨x, y, winW, winH, scale⟩ := by simpa using hd3
    have hxb := mem_scanXs_bounds _ _ _ _ hx
    have hyb := mem_scanXs_bounds _ _ _ _ hy
    have hdx : d.x = x := by rw [hdval]
    have hdy : d.y = y := by rw [hdval]
    have hdw : d.w = winW := by rw [hdval]
    have hdh : d.h = winH := by rw [hdval]
    have hds : d.scale = scale := by rw [hdval]
    exact ⟨by omega, by omega, by omega, by omega, hdw, hdh, hds,
      by rw [hdx, hdy]; exact hev⟩
  · rw [if_neg hev] at hd3
    exact absurd hd3 (List.not_mem_nil d)

theorem scaleLoop_inv (cascade : Cascade) (features : List HaarFeature)
    (ii ii2 : List ℝ) (width height : ℤ) (sf minSize maxSize : ℚ) :
    ∀ (fuel : ℕ) (scale : ℚ) (acc ds : List Detection),
      (∀ d ∈ acc,
        0 ≤ d.x ∧ 0 ≤ d.y ∧ d.x + d.w ≤ width ∧ d.y + d.h ≤ height ∧
        minSize ≤ (d.w : ℚ) ∧ minSize ≤ (d.h : ℚ) ∧
        evaluateCascade cascade features ii ii2 width d.x d.y
          ((d.scale : ℚ) : ℝ) d.w d.h = true) →
      scaleLoop cascade features ii ii2 width height sf minSize maxSize fuel
        scale acc = some ds →
      ∀ d ∈ ds,
        0 ≤ d.x ∧ 0 ≤ d.y ∧ d.x + d.w ≤ width ∧ d.y + d.h ≤ height ∧
        minSize ≤ (d.w : ℚ) ∧ minSize ≤ (d.h : ℚ) ∧
        evaluateCascade cascade features ii ii2 width d.x d.y
          ((d.scale : ℚ) : ℝ) d.w d.h = true := by
  intro fuel
  induction fuel with
  | zero => intro scale acc ds hacc hrun; exact absurd hrun (by rw [scaleLoop]; simp)
  | succ n ih =>
      intro scale acc ds hacc hrun
      rw [scaleLoop] at hrun
      by_cases hc : (cascade.baseWindowWidth : ℚ) * scale ≤ maxSize ∧
          (cascade.baseWindowHeight : ℚ) * scale ≤ maxSize
      · rw [if_pos hc] at hrun
        by_cases hm : ((round ((cascade.baseWindowWidth : ℚ) * scale) : ℤ)
              : ℚ) < minSize ∨
            ((round ((cascade.baseWindowHeight : ℚ) * scale) : ℤ) : ℚ)
              < minSize
        · rw [if_pos hm] at hrun
          exact ih (scale * sf) acc ds hacc hrun
        · rw [if_neg hm] at hrun
          push_neg at hm
          refine ih (scale * sf) _ ds (fun d hd => ?_) hrun
          rcases List.mem_append.mp hd with hda | hdn
          · exact hacc d hda
          · have h := mem_scaleDetections cascade features ii ii2 width
              height scale _ _ d hdn
            refine ⟨h.1, h.2.2.1, ?_, ?_, ?_, ?_, ?_⟩
            · rw [h.2.2.2.2.1]; exact h.2.1
            · rw [h.2.2.2.2.2.1]; exact h.2.2.2.1
            · rw [h.2.2.2.2.1]; exact hm.1
            · rw [h.2.2.2.2.2.1]; exact hm.2
            · rw [h.2.2.2.2.1, h.2.2.2.2.2.1, h.2.2.2.2.2.2.1]
              exact h.2.2.2.2.2.2.2
      · rw [if_neg hc] at hrun
        rw [Option.some.injEq] at hrun
        subst hrun
        exact hacc

/-! ## Lemmas about the temporal selector -/

theorem largestFace_cons (d e : Detection) (t : List Detection) :
    largestFace d (e :: t)
      = largestFace (if d.w * d.h < e.w * e.h then e else d) t := rfl

theorem largestFace_mem (d : Detection) (rest : List Detection) :
    largestFace d rest ∈ d :: rest := by
  induction rest generalizing d with
  | nil => exact List.mem_singleton.mpr rfl
  | cons e t ih =>
      rw [largestFace_cons]
      rcases List.mem_cons.mp (ih (if d.w * d.h < e.w * e.h then e else d))
          with h | h
      · rw [h]
        by_cases hc : d.w * d.h < e.w * e.h
        · rw [if_pos hc]; exact List.mem_cons_of_mem d (List.mem_cons_self e t)
        · rw [if_neg hc]; exact List.mem_cons_self d (e :: t)
      · exact List.mem_cons_of_mem d (List.mem_cons_of_mem e h)

theorem largestFace_max (d : Detection) (rest : List Detection) :
    ∀ e ∈ d :: rest,
      e.w * e.h ≤ (largestFace d rest).w * (largestFace d rest).h := by
  induction rest generalizing d with
  | nil =>
      intro e he
      have hd : e = d := by simpa using he
      subst hd
      exact le_refl _
  | cons f t ih =>
      intro e he
      rw [largestFace_cons]
      set g := if d.w * d.h < f.w * f.h then f else d with hg
      have hmaxd : d.w * d.h ≤ g.w * g.h := by
        rw [hg]
        by_cases hc : d.w * d.h < f.w * f.h
        · rw [if_pos hc]; exact le_of_lt hc
        · rw [if_neg hc]
      have hmaxf : f.w * f.h ≤ g.w * g.h := by
        rw [hg]
        by_cases hc : d.w * d.h < f.w * f.h
        · rw [if_pos hc]
        · rw [if_neg hc]; exact not_lt.mp hc
      have hgle : g.w * g.h ≤ (largestFace g t).w * (largestFace g t).h :=
        ih g g (List.mem_cons_self g t)
      rcases List.mem_cons.mp he with h1 | h1
      · subst h1; exact le_trans hmaxd hgle
      · rcases List.mem_cons.mp h1 with h2 | h2
        · subst h2; exact le_trans hmaxf hgle
        · exact ih g e (List.mem_cons_of_mem g h2)

theorem bestIoUMatch_eq (prev : Detection) (l : List Detection) :
    bestIoUMatch prev l = l.foldl (bestFoldF prev) (none, 0) := rfl

theorem bestFold_inv (prev : Detection) (l : List Detection) :
    ∀ st : Option Detection × ℚ,
      (∀ e ∈ l, calculateIoU prev e ≤ (l.foldl (bestFoldF prev) st).2) ∧
      st.2 ≤ (l.foldl (bestFoldF prev) st).2 ∧
      (l.foldl (bestFoldF prev) st = st ∨
        ∃ m, (l.foldl (bestFoldF prev) st).1 = some m ∧ m ∈ l ∧
          calculateIoU prev m = (l.foldl (bestFoldF prev) st).2) := by
  induction l with
  | nil => exact fun st => ⟨fun e he => absurd he (List.not_mem_nil e),
      le_refl _, Or.inl rfl⟩
  | cons e t ih =>
      intro st
      simp only [List.foldl_cons]
      have hup : st.2 ≤ (bestFoldF prev st e).2 ∧
          calculateIoU prev e ≤ (bestFoldF prev st e).2 ∧
          (bestFoldF prev st e = st ∨
            (bestFoldF prev st e).1 = some e ∧
              calculateIoU prev e = (bestFoldF prev st e).2) := by
        rw [bestFoldF]
        by_cases hc : st.2 < calculateIoU prev e
        · rw [if_pos hc]
          exact ⟨le_of_lt hc, le_refl _, Or.inr ⟨rfl, rfl⟩⟩
        · rw [if_neg hc]
          exact ⟨le_refl _, not_lt.mp hc, Or.inl rfl⟩
      refine ⟨fun x hx => ?_, le_trans hup.1 (ih (bestFoldF prev st e)).2.1,
        ?_⟩
      · rcases List.mem_cons.mp hx with h | h
        · rw [h]
          exact le_trans hup.2.1 (ih (bestFoldF prev st e)).2.1
        · exact (ih (bestFoldF prev st e)).1 x h
      · rcases (ih (bestFoldF prev st e)).2.2 with h | ⟨m, hm1, hm2, hm3⟩
        · rcases hup.2.2 with h2 | ⟨h2, h3⟩
          · exact Or.inl (h.trans h2)
          · exact Or.inr ⟨e, by rw [h]; exact h2, List.mem_cons_self e t,
              by rw [h]; exact h3⟩
        · exact Or.inr ⟨m, hm1, List.mem_cons_of_mem e hm2, hm3⟩

theorem bestIoUMatch_score (prev : Detection) (l : List Detection) :
    (∀ e ∈ l, calculateIoU prev e ≤ (bestIoUMatch prev l).2) ∧
    (∀ m, (bestIoUMatch prev l).1 = some m →
      m ∈ l ∧ calculateIoU prev m = (bestIoUMatch prev l).2) ∧
    ((bestIoUMatch prev l).1 = none → (bestIoUMatch prev l).2 = 0) := by
  have h := bestFold_inv prev l (none, 0)
  rw [← bestIoUMatch_eq] at h
  refine ⟨h.1, fun m hm => ?_, fun hn => ?_⟩
  · rcases h.2.2 with heq | ⟨m2, hm1, hm2, hm3⟩
    · rw [heq] at hm
      exact absurd hm (by simp)
    · rw [hm1, Option.some.injEq] at hm
      exact ⟨hm ▸ hm2, hm ▸ hm3⟩
  · rcases h.2.2 with heq | ⟨m2, hm1, hm2, hm3⟩
    · rw [heq]
    · rw [hm1] at hn
      exact absurd hn (by simp)

/-! ## Claim theorems -/

/-- **C3.** For every grayscale image, the integral tables built by
`computeIntegralImage` satisfy `ii[y][x] = Σ intensities ≤ (x,y)` and
`ii2[y][x] = Σ squared intensities ≤ (x,y)`; consequently `rectSum`
over any rectangle fully inside the image equals the sum of the
pixels it covers — in particular, over the whole image it is the
total intensity sum and over a 1×1 rectangle it is that single
pixel's value. -/
theorem claim_C3 (gray : ℕ → ℚ) (width height : ℕ) :
    (∀ y x, y < height → x < width →
      (computeIntegralImage gray width height).1[y * width + x]?
        = some (∑ j ∈ Finset.range (y + 1), ∑ i ∈ Finset.range (x + 1),
            gray (j * width + i)) ∧
      (computeIntegralImage gray width height).2[y * width + x]?
        = some (∑ j ∈ Finset.range (y + 1), ∑ i ∈ Finset.range (x + 1),
            gray (j * width + i) * gray (j * width + i))) ∧
    (∀ x y w h : ℕ, 0 < w → 0 < h → x + w ≤ width → y + h ≤ height →
      rectSum (computeIntegralImage gray width height).1 width x y w h
        = some (∑ j ∈ Finset.Ico y (y + h), ∑ i ∈ Finset.Ico x (x + w),
            gray (j * width + i))) ∧
    (0 < width → 0 < height →
      rectSum (computeIntegralImage gray width height).1 width 0 0 width
          height
        = some (∑ j ∈ Finset.range height, ∑ i ∈ Finset.range width,
            gray (j * width + i))) ∧
    (∀ x y : ℕ, x < width → y < height →
      rectSum (computeIntegralImage gray width height).1 width x y 1 1
        = some (gray (y * width + x))) := by
  refine ⟨fun y x hy hx => ?_, fun x y w h hw hh hxw hyh => ?_,
    fun hw hh => ?_, fun x y hx hy => ?_⟩
  · constructor
    · rw [computeIntegralImage, integralList_getElem gray width height y x
        hy hx, iiEntry_eq]
      rfl
    · rw [computeIntegralImage,
        integralList_getElem (fun i => gray i * gray i) width height y x
          hy hx, iiEntry_eq]
      rfl
  · exact rectSum_inside gray width height x y w h hw hh hxw hyh
  · have h := rectSum_inside gray width height 0 0 width height hw hh
      (by omega) (by omega)
    simp only [Nat.cast_zero] at h
    rw [computeIntegralImage, h]
    simp only [Finset.range_eq_Ico, Nat.zero_add]
  · have h := rectSum_inside gray width height x y 1 1 (by omega) (by omega)
      (by omega) (by omega)
    simp only [Nat.cast_one] at h
    rw [computeIntegralImage, h]
    simp

/-- Witness for C3 on the concrete 2×2 image `g2`: the full-image
rectangle sum is 1 + 2 + 3 + 4 = 10. -/
theorem claim_C3_witness :
    rectSum (computeIntegralImage g2 2 2).1 2 0 0 2 2 = some 10 := by
  have h := (claim_C3 g2 2 2).2.2.1 (by norm_num) (by norm_num)
  simp only [Nat.cast_ofNat] at h
  rw [h]
  norm_num [g2, Finset.sum_range_succ]

/-- **C2 (code bug).** `rectSum` checks only the lower bounds of the
rectangle: a rectangle lying entirely below (or right of) the image
is not detected, and the corner read `ii[y2*width + x2]` indexes past
the end of the buffer (JS `undefined`, poisoning the result as `NaN`,
modelled as `none`).  Here `[1, 3, 3, 10]` is the integral table of
the 2×2 image `g2`, and the 1×1 rectangle at `(0, 2)` lies entirely
below the image: the read index is `y2*width + x2 = 4`, one past the
end, so the result is `none` rather than the claimed 0. -/
theorem claim_C2_bug :
    rectSum ([1, 3, 4, 10] : List ℚ) 2 0 2 1 1 = none ∧
    computeIntegralImage g2 2 2 = ([1, 3, 4, 10], [1, 5, 10, 30]) := by
  constructor
  · rfl
  · show (integralList g2 2 2, integralList (fun i => g2 i * g2 i) 2 2) = _
    norm_num [integralList, List.range_succ, iiEntry, rowSum, g2]

/-- **C4.** `evaluateCascade` normalizes with
`stdDev = sqrt(max(variance, 1.0))`, so `stdDev ≥ 1` and the division
in feature normalization is defined; it returns `true` iff every
stage passes (with that `invArea`/`stdDev`); and once a stage fails
the result is `false` and is the same as for the cascade truncated
right after that stage — later stages are never consulted. -/
theorem claim_C4 (cascade : Cascade) (features : List HaarFeature)
    (ii ii2 : List ℝ) (imageWidth wx wy winW winH : ℤ) (scale : ℝ) :
    windowStdDev ii ii2 imageWidth wx wy winW winH
        = Real.sqrt (max (windowVariance ii ii2 imageWidth wx wy winW winH) 1)
      ∧
    1 ≤ windowStdDev ii ii2 imageWidth wx wy winW winH ∧
    (evaluateCascade cascade features ii ii2 imageWidth wx wy scale winW winH
        = true ↔
      ∀ s ∈ cascade.stages,
        evaluateStage s features ii imageWidth wx wy scale
          (1 / ((winW * winH : ℤ) : ℝ))
          (windowStdDev ii ii2 imageWidth wx wy winW winH) = true) ∧
    (∀ pre (s : Stage) post, cascade.stages = pre ++ s :: post →
      evaluateStage s features ii imageWidth wx wy scale
          (1 / ((winW * winH : ℤ) : ℝ))
          (windowStdDev ii ii2 imageWidth wx wy winW winH) = false →
      evaluateCascade cascade features ii ii2 imageWidth wx wy scale winW winH
          = false ∧
      evaluateCascade cascade features ii ii2 imageWidth wx wy scale winW winH
        = evaluateCascade
            ⟨cascade.baseWindowWidth, cascade.baseWindowHeight, pre ++ [s]⟩
            features ii ii2 imageWidth wx wy scale winW winH) := by
  refine ⟨rfl, one_le_windowStdDev ii ii2 imageWidth wx wy winW winH, ?_, ?_⟩
  · rw [evaluateCascade, stagesPass_all, List.all_eq_true]
  · intro pre s post hstages hfail
    have h := stagesPass_first_fail pre post s features ii imageWidth wx wy
      scale (1 / ((winW * winH : ℤ) : ℝ))
      (windowStdDev ii ii2 imageWidth wx wy winW winH) hfail
    constructor
    · rw [evaluateCascade, hstages]
      exact h.1
    · rw [evaluateCascade, evaluateCascade, hstages]
      exact h.2

/-- Witness for C4: Scenario A's stage fails on any window, so a
cascade listing it first, followed by a second (never consulted)
copy, evaluates to `false` and to the same value as the truncated
one-stage cascade. -/
theorem claim_C4_witness :
    evaluateCascade ⟨24, 24, [scenStage, scenStage]⟩ scenFeatures [] [] 24 0 0
        1 24 24 = false ∧
    evaluateCascade ⟨24, 24, [scenStage, scenStage]⟩ scenFeatures [] [] 24 0 0
        1 24 24
      = evaluateCascade ⟨24, 24, [] ++ [scenStage]⟩ scenFeatures [] [] 24 0 0
          1 24 24 :=
  (claim_C4 ⟨24, 24, [scenStage, scenStage]⟩ scenFeatures [] [] 24 0 0 24 24
      1).2.2.2 [] scenStage [scenStage] rfl
    (evaluateStage_scen [] 24 0 0 1 (1 / ((24 * 24 : ℤ) : ℝ))
      (windowStdDev [] [] 24 0 0 24 24))

/-- **C5.** `evaluateStage` accumulates `alpha` for a normalized
feature value strictly below the classifier threshold and `beta`
otherwise, over all weak classifiers, and passes iff the sum reaches
the stage threshold; Scenario A's one-stage cascade (feature
constantly 0, threshold 0.5, alpha 0, beta 1, stage threshold 1)
rejects every window, so `detectFaces` yields an empty detection set
whenever its scan loop finishes. -/
theorem claim_C5 :
    (∀ (stage : Stage) (features : List HaarFeature) (ii : List ℝ)
        (imageWidth wx wy : ℤ) (scale invArea stdDev : ℝ),
      (evaluateStage stage features ii imageWidth wx wy scale invArea stdDev
          = true) ↔
        stage.stageThreshold ≤
          stageVoteSum stage features ii imageWidth wx wy scale invArea
            stdDev) ∧
    (∀ (ii ii2 : List ℝ) (imageWidth wx wy : ℤ) (scale : ℝ) (winW winH : ℤ),
      evaluateCascade scenCascade scenFeatures ii ii2 imageWidth wx wy scale
        winW winH = false) ∧
    (∀ (gray : ℕ → ℝ) (width height : ℕ) (scaleFactor minSize maxSize : ℚ)
        (fuel : ℕ),
      detectFaces gray width height scenCascade scenFeatures scaleFactor
          minSize maxSize fuel = none ∨
      detectFaces gray width height scenCascade scenFeatures scaleFactor
          minSize maxSize fuel = some []) := by
  refine ⟨evaluateStage_iff, evaluateCascade_scen, ?_⟩
  intro gray width height scaleFactor minSize maxSize fuel
  rw [detectFaces, if_neg (by simp [scenCascade])]
  rcases scaleLoop_scen
      (computeIntegralImage gray width height).1
      (computeIntegralImage gray width height).2 width height scaleFactor
      minSize maxSize fuel 1 with h | h
  · rw [h]; exact Or.inl rfl
  · rw [h]
    right
    simp [nonMaximumSuppression]

/-- **C7.** Any two distinct detections kept by NMS at the default
overlap threshold 0.3 have IoU ≤ 0.3; and for Scenario B's two
equal-area boxes (IoU = 8100/11900 ≈ 0.68) exactly the
first-enumerated one is kept — the stable sort leaves the equal-area
pair in enumeration order. -/
theorem claim_C7 :
    (∀ (detections : List Detection) (a b : Detection),
        a ∈ nonMaximumSuppression detections (3 / 10) →
        b ∈ nonMaximumSuppression detections (3 / 10) →
        a ≠ b → computeIOU a b ≤ 3 / 10) ∧
    nonMaximumSuppression [⟨0, 0, 100, 100, 1⟩, ⟨10, 10, 100, 100, 1⟩]
        (3 / 10) = [⟨0, 0, 100, 100, 1⟩] := by
  constructor
  · intro detections a b ha hb hab
    refine List.Pairwise.forall ?_ (nms_pairwise detections (3 / 10)) ha hb hab
    intro u v huv
    rw [computeIOU_comm]
    exact huv
  · have hiou : computeIOU ⟨0, 0, 100, 100, 1⟩ ⟨10, 10, 100, 100, 1⟩
        = 8100 / 11900 := by
      norm_num [computeIOU, max_def, min_def]
    have hsorted : List.mergeSort
        [(⟨0, 0, 100, 100, 1⟩ : Detection), ⟨10, 10, 100, 100, 1⟩] areaDesc
        = [⟨0, 0, 100, 100, 1⟩, ⟨10, 10, 100, 100, 1⟩] :=
      List.mergeSort_of_sorted (by simp [areaDesc])
    rw [nonMaximumSuppression, if_neg (by simp), hsorted, nmsKeep]
    rw [show List.filter
          (fun e => !decide (3 / 10 < computeIOU ⟨0, 0, 100, 100, 1⟩ e))
          [(⟨10, 10, 100, 100, 1⟩ : Detection)] = [] from by
      simp [hiou]; norm_num]
    rw [nmsKeep]

/-- Witness for C7 on a concrete run with two non-overlapping boxes:
both are kept and their IoU (0) is within the threshold. -/
theorem claim_C7_witness :
    computeIOU ⟨0, 0, 10, 10, 1⟩ ⟨100, 100, 10, 10, 1⟩ ≤ 3 / 10 := by
  have hnms : nonMaximumSuppression
      [⟨0, 0, 10, 10, 1⟩, ⟨100, 100, 10, 10, 1⟩] (3 / 10)
      = [⟨0, 0, 10, 10, 1⟩, ⟨100, 100, 10, 10, 1⟩] := by
    have hiou : computeIOU ⟨0, 0, 10, 10, 1⟩ ⟨100, 100, 10, 10, 1⟩ = 0 := by
      norm_num [computeIOU, max_def, min_def]
    have hsorted : List.mergeSort
        [(⟨0, 0, 10, 10, 1⟩ : Detection), ⟨100, 100, 10, 10, 1⟩] areaDesc
        = [⟨0, 0, 10, 10, 1⟩, ⟨100, 100, 10, 10, 1⟩] :=
      List.mergeSort_of_sorted (by simp [areaDesc])
    rw [nonMaximumSuppression, if_neg (by simp), hsorted, nmsKeep]
    rw [show List.filter
          (fun e => !decide (3 / 10 < computeIOU ⟨0, 0, 10, 10, 1⟩ e))
          [(⟨100, 100, 10, 10, 1⟩ : Detection)]
        = [(⟨100, 100, 10, 10, 1⟩ : Detection)] from by
      simp [hiou]; norm_num]
    rw [nmsKeep, List.filter_nil, nmsKeep]
  exact claim_C7.1 [⟨0, 0, 10, 10, 1⟩, ⟨100, 100, 10, 10, 1⟩] _ _
    (by rw [hnms]; simp) (by rw [hnms]; simp)
    (by intro h; exact absurd (congrArg Detection.x h) (by norm_num))

/-- **C8.** Non-maximum suppression is idempotent at the default
threshold: its output is sorted by area descending and pairwise
within the overlap threshold, so a second application sorts it to
itself and suppresses nothing. -/
theorem claim_C8 (detections : List Detection) :
    nonMaximumSuppression (nonMaximumSuppression detections (3 / 10)) (3 / 10)
      = nonMaximumSuppression detections (3 / 10) := by
  by_cases hout : nonMaximumSuppression detections (3 / 10) = []
  · rw [hout, nonMaximumSuppression, if_pos rfl]
  · by_cases hdet : detections = []
    · rw [hdet, nonMaximumSuppression, if_pos rfl] at hout
      exact absurd rfl hout
    · have hform : nonMaximumSuppression detections (3 / 10)
          = nmsKeep (3 / 10) (detections.mergeSort areaDesc) := by
        rw [nonMaximumSuppression, if_neg hdet]
      have hsorted : (nonMaximumSuppression detections (3 / 10)).Pairwise
          fun a b => areaDesc a b = true := by
        rw [hform]
        exact List.Pairwise.sublist (nmsKeep_sublist _ _)
          (List.sorted_mergeSort areaDesc_trans areaDesc_total detections)
      rw [nonMaximumSuppression, if_neg hout,
        List.mergeSort_of_sorted hsorted]
      exact nmsKeep_of_pairwise _ _ (nms_pairwise detections (3 / 10))

/-- **C9.** The temporal selector returns `none` iff the candidate
list is empty; with no previous box it returns a largest-area
candidate; with a previous box it returns the candidate attaining the
best IoU, except that when the best IoU is below 0.1 (in particular
when every candidate's IoU is, since the fold's score is then 0) it
falls back to a largest-area candidate. -/
theorem claim_C9 (detections : List Detection)
    (previousBox : Option Detection) :
    (selectBestFace detections previousBox = none ↔ detections = []) ∧
    (previousBox = none → detections ≠ [] →
      ∃ d, selectBestFace detections previousBox = some d ∧ d ∈ detections ∧
        ∀ e ∈ detections, e.w * e.h ≤ d.w * d.h) ∧
    (∀ prev, previousBox = some prev → detections ≠ [] →
      ∃ d, selectBestFace detections previousBox = some d ∧ d ∈ detections ∧
        ((bestIoUMatch prev detections).2 < 1 / 10 →
          ∀ e ∈ detections, e.w * e.h ≤ d.w * d.h) ∧
        (1 / 10 ≤ (bestIoUMatch prev detections).2 →
          calculateIoU prev d = (bestIoUMatch prev detections).2 ∧
          ∀ e ∈ detections, calculateIoU prev e ≤ calculateIoU prev d)) := by
  cases detections with
  | nil =>
      refine ⟨by simp [selectBestFace], fun _ hne => absurd rfl hne,
        fun prev _ hne => absurd rfl hne⟩
  | cons d rest =>
      cases previousBox with
      | none =>
          have hsel : selectBestFace (d :: rest) none
              = some (largestFace d rest) := rfl
          refine ⟨by rw [hsel]; simp, fun _ _ => ?_, fun prev hprev =>
            absurd hprev (by simp)⟩
          exact ⟨largestFace d rest, hsel, largestFace_mem d rest,
            largestFace_max d rest⟩
      | some prev =>
          have hsel : selectBestFace (d :: rest) (some prev)
              = if (bestIoUMatch prev (d :: rest)).1 = none ∨
                  (bestIoUMatch prev (d :: rest)).2 < 1 / 10
                then some (largestFace d rest)
                else (bestIoUMatch prev (d :: rest)).1 := rfl
          have hscore := bestIoUMatch_score prev (d :: rest)
          by_cases hc : (bestIoUMatch prev (d :: rest)).1 = none ∨
              (bestIoUMatch prev (d :: rest)).2 < 1 / 10
          · have hres : selectBestFace (d :: rest) (some prev)
                = some (largestFace d rest) := by rw [hsel, if_pos hc]
            have hlow : (bestIoUMatch prev (d :: rest)).2 < 1 / 10 := by
              rcases hc with hn | hlt
              · rw [hscore.2.2 hn]; norm_num
              · exact hlt
            refine ⟨by rw [hres]; simp, fun h _ => absurd h (by simp),
              fun prev2 hprev2 _ => ?_⟩
            have hp : prev2 = prev := by
              rw [Option.some.injEq] at hprev2
              exact hprev2.symm
            subst hp
            exact ⟨largestFace d rest, hres, largestFace_mem d rest,
              fun _ => largestFace_max d rest,
              fun hge => absurd hlow (not_lt.mpr hge)⟩
          · push_neg at hc
            obtain ⟨m, hm⟩ := Option.ne_none_iff_exists.mp hc.1
            have hres : selectBestFace (d :: rest) (some prev)
                = (bestIoUMatch prev (d :: rest)).1 := by
              rw [hsel, if_neg]
              push_neg
              exact hc
            have hmprops := hscore.2.1 m hm.symm
            refine ⟨by rw [hres, ← hm]; simp, fun h _ => absurd h (by simp),
              fun prev2 hprev2 _ => ?_⟩
            have hp : prev2 = prev := by
              rw [Option.some.injEq] at hprev2
              exact hprev2.symm
            subst hp
            refine ⟨m, by rw [hres, ← hm], hmprops.1,
              fun hlt => absurd hlt (not_lt.mpr hc.2), fun _ => ?_⟩
            refine ⟨hmprops.2, fun e he => ?_⟩
            rw [hmprops.2]
            exact hscore.1 e he

/-- Witness for C9: Scenario C — previous box (50,50,60,60), first
candidate overlapping it heavily, second candidate far away; the
selector picks a candidate with the fold's best IoU. -/
theorem claim_C9_witness :
    ∃ dd, selectBestFace
        [⟨52, 51, 58, 59, 1⟩, ⟨500, 500, 200, 200, 1⟩]
        (some ⟨50, 50, 60, 60, 1⟩) = some dd ∧
      dd ∈ [(⟨52, 51, 58, 59, 1⟩ : Detection), ⟨500, 500, 200, 200, 1⟩] ∧
      ((bestIoUMatch ⟨50, 50, 60, 60, 1⟩
          [⟨52, 51, 58, 59, 1⟩, ⟨500, 500, 200, 200, 1⟩]).2 < 1 / 10 →
        ∀ e ∈ [(⟨52, 51, 58, 59, 1⟩ : Detection), ⟨500, 500, 200, 200, 1⟩],
          e.w * e.h ≤ dd.w * dd.h) ∧
      (1 / 10 ≤ (bestIoUMatch ⟨50, 50, 60, 60, 1⟩
          [⟨52, 51, 58, 59, 1⟩, ⟨500, 500, 200, 200, 1⟩]).2 →
        calculateIoU ⟨50, 50, 60, 60, 1⟩ dd
            = (bestIoUMatch ⟨50, 50, 60, 60, 1⟩
                [⟨52, 51, 58, 59, 1⟩, ⟨500, 500, 200, 200, 1⟩]).2 ∧
        ∀ e ∈ [(⟨52, 51, 58, 59, 1⟩ : Detection), ⟨500, 500, 200, 200, 1⟩],
          calculateIoU ⟨50, 50, 60, 60, 1⟩ e
            ≤ calculateIoU ⟨50, 50, 60, 60, 1⟩ dd) :=
  (claim_C9 [⟨52, 51, 58, 59, 1⟩, ⟨500, 500, 200, 200, 1⟩]
      (some ⟨50, 50, 60, 60, 1⟩)).2.2 ⟨50, 50, 60, 60, 1⟩ rfl (by simp)

/-- **C10.** Every detection returned by `detectFaces` lies fully
inside the image, respects the `minSize` floor on both dimensions,
and is one of the scanned windows that passed the cascade with
exactly that geometry (NMS only discards, never fabricates or
resizes). -/
theorem claim_C10 (gray : ℕ → ℝ) (width height : ℕ) (cascade : Cascade)
    (features : List HaarFeature) (sf minSize maxSize : ℚ) (fuel : ℕ)
    (ds : List Detection) (d : Detection)
    (hrun : detectFaces gray width height cascade features sf minSize maxSize
      fuel = some ds)
    (hd : d ∈ ds) :
    0 ≤ d.x ∧ 0 ≤ d.y ∧ d.x + d.w ≤ (width : ℤ) ∧ d.y + d.h ≤ (height : ℤ) ∧
    minSize ≤ (d.w : ℚ) ∧ minSize ≤ (d.h : ℚ) ∧
    evaluateCascade cascade features (computeIntegralImage gray width height).1
      (computeIntegralImage gray width height).2 width d.x d.y
      ((d.scale : ℚ) : ℝ) d.w d.h = true := by
  rw [detectFaces] at hrun
  by_cases hdeg : cascade.baseWindowWidth = 0 ∨ cascade.baseWindowHeight = 0
  · rw [if_pos hdeg, Option.some.injEq] at hrun
    subst hrun
    exact absurd hd (List.not_mem_nil d)
  · rw [if_neg hdeg] at hrun
    obtain ⟨raw, hraw, hds⟩ := Option.map_eq_some'.mp hrun
    have hdraw : d ∈ raw := by
      rw [← hds] at hd
      exact mem_nms raw (3 / 10) d hd
    exact scaleLoop_inv cascade features _ _ width height sf minSize maxSize
      fuel 1 [] raw (fun e he => absurd he (List.not_mem_nil e)) hraw d hdraw

theorem nms_singleton (d : Detection) (thr : ℚ) :
    nonMaximumSuppression [d] thr = [d] := by
  rw [nonMaximumSuppression, if_neg (by simp), List.mergeSort_singleton,
    nmsKeep, List.filter_nil, nmsKeep]

/-- A concrete full run of `detectFaces`: 1×1 image, 1×1 base window,
`scaleFactor 2`, `minSize 1`, `maxSize 1` — one window scanned at
scale 1, accepted, and kept by NMS. -/
theorem detectFaces_one_run :
    detectFaces grayZ 1 1 cascadeOne [] 2 1 1 2 = some [⟨0, 0, 1, 1, 1⟩] := by
  have hev : ∀ x y : ℤ,
      evaluateCascade ⟨1, 1, []⟩ [] (computeIntegralImage grayZ 1 1).1
        (computeIntegralImage grayZ 1 1).2 1 x y 1 1 1 = true :=
    fun x y => rfl
  have hscan : scanXs 0 2 0 = [0] := by
    rw [scanXs, if_pos (by norm_num), scanXs, if_neg (by norm_num)]
  have hdets : scaleDetections ⟨1, 1, []⟩ []
      (computeIntegralImage grayZ 1 1).1 (computeIntegralImage grayZ 1 1).2
      1 1 1 1 1 = [⟨0, 0, 1, 1, 1⟩] := by
    have hstep : max 2 ⌊(1 / 10 : ℚ) * ((1 : ℤ) : ℚ)⌋ = 2 := by
      rw [show ⌊(1 / 10 : ℚ) * ((1 : ℤ) : ℚ)⌋ = 0 from by norm_num]
      norm_num
    simp only [scaleDetections]
    rw [hstep, show (1 : ℤ) - 1 = 0 from by norm_num, hscan]
    simp [hev]
  rw [detectFaces, if_neg (by simp [cascadeOne])]
  rw [show (2 : ℕ) = 1 + 1 from rfl, scaleLoop,
    if_pos (by norm_num [cascadeOne])]
  rw [if_neg (by norm_num [cascadeOne, round_eq])]
  norm_num [cascadeOne, round_eq]
  rw [show (1 : ℕ) = 0 + 1 from rfl, scaleLoop,
    if_neg (by norm_num)]
  rw [hdets]
  exact ⟨_, rfl, nms_singleton _ _⟩

/-- Witness for C10 on the concrete run above: the returned detection
is in bounds, at least `minSize`, and passed the cascade. -/
theorem claim_C10_witness :
    0 ≤ (⟨0, 0, 1, 1, 1⟩ : Detection).x ∧
    0 ≤ (⟨0, 0, 1, 1, 1⟩ : Detection).y ∧
    (⟨0, 0, 1, 1, 1⟩ : Detection).x + (⟨0, 0, 1, 1, 1⟩ : Detection).w
      ≤ ((1 : ℕ) : ℤ) ∧
    (⟨0, 0, 1, 1, 1⟩ : Detection).y + (⟨0, 0, 1, 1, 1⟩ : Detection).h
      ≤ ((1 : ℕ) : ℤ) ∧
    (1 : ℚ) ≤ ((⟨0, 0, 1, 1, 1⟩ : Detection).w : ℚ) ∧
    (1 : ℚ) ≤ ((⟨0, 0, 1, 1, 1⟩ : Detection).h : ℚ) ∧
    evaluateCascade cascadeOne [] (computeIntegralImage grayZ 1 1).1
      (computeIntegralImage grayZ 1 1).2 1
      (⟨0, 0, 1, 1, 1⟩ : Detection).x (⟨0, 0, 1, 1, 1⟩ : Detection).y
      (((⟨0, 0, 1, 1, 1⟩ : Detection).scale : ℚ) : ℝ)
      (⟨0, 0, 1, 1, 1⟩ : Detection).w (⟨0, 0, 1, 1, 1⟩ : Detection).h
      = true :=
  claim_C10 grayZ 1 1 cascadeOne [] 2 1 1 2 [⟨0, 0, 1, 1, 1⟩]
    ⟨0, 0, 1, 1, 1⟩ detectFaces_one_run (List.mem_singleton.mpr rfl)

/-- With `scaleFactor = 1` the scale never changes, so whenever the
base window fits under `maxSize` the `while` condition of
`detectFaces` holds forever: the loop exhausts any amount of fuel
(the JS loop never terminates). -/
theorem scaleLoop_sf_one (cascade : Cascade) (features : List HaarFeature)
    (ii ii2 : List ℝ) (width height : ℤ) (minSize maxSize : ℚ)
    (h1 : (cascade.baseWindowWidth : ℚ) ≤ maxSize)
    (h2 : (cascade.baseWindowHeight : ℚ) ≤ maxSize) :
    ∀ fuel acc, scaleLoop cascade features ii ii2 width height 1 minSize
      maxSize fuel 1 acc = none := by
  intro fuel
  induction fuel with
  | zero => intro acc; rfl
  | succ n ih =>
      intro acc
      rw [scaleLoop, if_pos (by rw [mul_one, mul_one]; exact ⟨h1, h2⟩)]
      by_cases hm : ((round ((cascade.baseWindowWidth : ℚ) * 1) : ℤ) : ℚ)
            < minSize ∨
          ((round ((cascade.baseWindowHeight : ℚ) * 1) : ℤ) : ℚ) < minSize
      · rw [if_pos hm, one_mul]
        exact ih acc
      · rw [if_neg hm, one_mul]
        exact ih _

/-- **C1 (code bug).** `detectFaces` performs no validation of its
options.  With `scaleFactor = 1` (and the base window under
`maxSize`) the scan loop never terminates — `none` for every fuel —
instead of reporting a configuration error; with
`minSize = 30 > maxSize = 20` it silently returns the empty list
(the spec demands rejection before scanning, not a silent no-op). -/
theorem claim_C1_bug :
    (∀ fuel, detectFaces grayZ 100 100 cascadeBase [] 1 24 100 fuel = none) ∧
    detectFaces grayZ 100 100 cascadeBase [] (6 / 5) 30 20 2 = some [] := by
  constructor
  · intro fuel
    rw [detectFaces, if_neg (by simp [cascadeBase])]
    rw [scaleLoop_sf_one cascadeBase [] _ _ _ _ 24 100
      (by simp [cascadeBase]; norm_num) (by simp [cascadeBase]; norm_num)]
    rfl
  · rw [detectFaces, if_neg (by simp [cascadeBase])]
    rw [scaleLoop, if_neg (by simp [cascadeBase]; norm_num)]
    simp [nonMaximumSuppression]

/-- The scan loop, run from scale `sf ^ j` with enough fuel to reach
the first stopping scale `K`, computes exactly the spec's
scale-by-scale description of the remaining steps. -/
theorem scaleLoop_run (cascade : Cascade) (features : List HaarFeature)
    (ii ii2 : List ℝ) (width height : ℤ) (sf minSize maxSize : ℚ) (K : ℕ)
    (hKstop : ¬((cascade.baseWindowWidth : ℚ) * sf ^ K ≤ maxSize ∧
      (cascade.baseWindowHeight : ℚ) * sf ^ K ≤ maxSize))
    (hKmin : ∀ k, k < K → (cascade.baseWindowWidth : ℚ) * sf ^ k ≤ maxSize ∧
      (cascade.baseWindowHeight : ℚ) * sf ^ k ≤ maxSize) :
    ∀ (fuel j : ℕ) (acc : List Detection), j ≤ K → K < j + fuel →
      scaleLoop cascade features ii ii2 width height sf minSize maxSize fuel
          (sf ^ j) acc
        = some (acc ++ (List.range (K - j)).flatMap
            fun t => specScaleBody cascade features ii ii2 width height sf
              minSize (j + t)) := by
  intro fuel
  induction fuel with
  | zero => intro j acc hj hlt; omega
  | succ n ih =>
      intro j acc hj hlt
      rcases eq_or_lt_of_le hj with hjK | hjK
      · subst hjK
        rw [scaleLoop, if_neg hKstop, Nat.sub_self, List.range_zero,
          List.flatMap_nil, List.append_nil]
      · have hcond := hKmin j hjK
        rw [scaleLoop, if_pos hcond]
        have hpow : sf ^ j * sf = sf ^ (j + 1) := (pow_succ sf j).symm
        have hrange : K - j = (K - (j + 1)) + 1 := by omega
        by_cases hm :
            ((round ((cascade.baseWindowWidth : ℚ) * sf ^ j) : ℤ) : ℚ)
              < minSize ∨
            ((round ((cascade.baseWindowHeight : ℚ) * sf ^ j) : ℤ) : ℚ)
              < minSize
        · rw [if_pos hm, hpow, ih (j + 1) acc (by omega) (by omega)]
          rw [hrange, List.range_succ_eq_map, List.flatMap_cons,
            List.flatMap_map]
          rw [show specScaleBody cascade features ii ii2 width height sf
              minSize (j + 0) = [] from by
            rw [Nat.add_zero, specScaleBody, if_pos hm]]
          rw [List.nil_append]
          have hfun : ∀ t : ℕ, specScaleBody cascade features ii ii2 width
              height sf minSize (j + 1 + t)
              = specScaleBody cascade features ii ii2 width height sf minSize
                  (j + Nat.succ t) := by
            intro t
            congr 1
            omega
          simp only [hfun]
        · rw [if_neg hm, hpow, ih (j + 1) _ (by omega) (by omega)]
          rw [hrange, List.range_succ_eq_map, List.flatMap_cons,
            List.flatMap_map]
          rw [show specScaleBody cascade features ii ii2 width height sf
              minSize (j + 0)
              = scaleDetections cascade features ii ii2 width height (sf ^ j)
                  (round ((cascade.baseWindowWidth : ℚ) * sf ^ j))
                  (round ((cascade.baseWindowHeight : ℚ) * sf ^ j)) from by
            rw [Nat.add_zero, specScaleBody, if_neg hm]]
          rw [List.append_assoc]
          have hfun : ∀ t : ℕ, specScaleBody cascade features ii ii2 width
              height sf minSize (j + 1 + t)
              = specScaleBody cascade features ii ii2 width height sf minSize
                  (j + Nat.succ t) := by
            intro t
            congr 1
            omega
          simp only [hfun]

/-- **C6.** With `scaleFactor > 1` and positive base window
dimensions, the multi-scale scan terminates: there is a first scale
index `K` at which the scaled window exceeds `maxSize` (on either
axis), every earlier scale fits, and with fuel beyond `K` the loop
returns exactly the spec's scale-by-scale description — scales
`scaleFactor ^ k`, scales below `minSize` skipped without aborting,
and at each scanned scale window origins stepped by
`max(2, ⌊0.1·winW⌋)` over `0 ≤ v ≤ bound` in both axes (the final
conjunct characterizes the stepped grid). -/
theorem claim_C6 (cascade : Cascade) (features : List HaarFeature)
    (ii ii2 : List ℝ) (width height : ℤ) (sf minSize maxSize : ℚ)
    (hsf : 1 < sf) (hbW : 0 < cascade.baseWindowWidth)
    (hbH : 0 < cascade.baseWindowHeight) :
    ∃ K : ℕ,
      (∀ k, k < K → (cascade.baseWindowWidth : ℚ) * sf ^ k ≤ maxSize ∧
        (cascade.baseWindowHeight : ℚ) * sf ^ k ≤ maxSize) ∧
      ¬((cascade.baseWindowWidth : ℚ) * sf ^ K ≤ maxSize ∧
        (cascade.baseWindowHeight : ℚ) * sf ^ K ≤ maxSize) ∧
      (∀ fuel, K < fuel →
        scaleLoop cascade features ii ii2 width height sf minSize maxSize
            fuel 1 []
          = some ((List.range K).flatMap
              fun k => specScaleBody cascade features ii ii2 width height sf
                minSize k)) ∧
      (∀ winW bound v : ℤ,
        v ∈ scanXs bound (max 2 ⌊(1 / 10 : ℚ) * winW⌋) 0 ↔
          0 ≤ v ∧ v ≤ bound ∧
            ∃ k : ℕ, v = k * max 2 ⌊(1 / 10 : ℚ) * winW⌋) := by
  have hex : ∃ k : ℕ, ¬((cascade.baseWindowWidth : ℚ) * sf ^ k ≤ maxSize ∧
      (cascade.baseWindowHeight : ℚ) * sf ^ k ≤ maxSize) := by
    obtain ⟨n, hn⟩ := pow_unbounded_of_one_lt maxSize hsf
    refine ⟨n, fun hc => ?_⟩
    have h1 : (1 : ℚ) ≤ (cascade.baseWindowWidth : ℚ) := by
      exact_mod_cast hbW
    have h2 : sf ^ n ≤ (cascade.baseWindowWidth : ℚ) * sf ^ n :=
      le_mul_of_one_le_left (pow_nonneg (by linarith) n) h1
    linarith [hc.1]
  refine ⟨Nat.find hex, fun k hk => ?_, Nat.find_spec hex, fun fuel hfuel =>
    ?_, fun winW bound v => ?_⟩
  · have := Nat.find_min hex hk
    by_contra hcon
    exact this hcon
  · have h := scaleLoop_run cascade features ii ii2 width height sf minSize
      maxSize (Nat.find hex) (Nat.find_spec hex)
      (fun k hk => by
        have := Nat.find_min hex hk
        by_contra hcon
        exact this hcon) fuel 0 [] (by omega) (by omega)
    rw [pow_zero] at h
    rw [h, Nat.sub_zero]
    simp only [Nat.zero_add, List.nil_append]
  · have h := mem_scanXs_iff bound (max 2 ⌊(1 / 10 : ℚ) * winW⌋)
      (lt_of_lt_of_le (by norm_num) (le_max_left 2 _)) 0 v
    simpa using h

/-- Witness for C6: the 1×1 base cascade, `scaleFactor 2`,
`maxSize 1`, on a 1×1 image. -/
theorem claim_C6_witness :
    ∃ K : ℕ,
      (∀ k, k < K → (cascadeOne.baseWindowWidth : ℚ) * 2 ^ k ≤ 1 ∧
        (cascadeOne.baseWindowHeight : ℚ) * 2 ^ k ≤ 1) ∧
      ¬((cascadeOne.baseWindowWidth : ℚ) * 2 ^ K ≤ 1 ∧
        (cascadeOne.baseWindowHeight : ℚ) * 2 ^ K ≤ 1) ∧
      (∀ fuel, K < fuel →
        scaleLoop cascadeOne [] [] [] 1 1 2 1 1 fuel 1 []
          = some ((List.range K).flatMap
              fun k => specScaleBody cascadeOne [] [] [] 1 1 2 1 k)) ∧
      (∀ winW bound v : ℤ,
        v ∈ scanXs bound (max 2 ⌊(1 / 10 : ℚ) * winW⌋) 0 ↔
          0 ≤ v ∧ v ≤ bound ∧
            ∃ k : ℕ, v = k * max 2 ⌊(1 / 10 : ℚ) * winW⌋) :=
  claim_C6 cascadeOne [] [] [] 1 1 2 1 1 (by norm_num)
    (by simp [cascadeOne]) (by simp [cascadeOne])

end TFD
